import Mathlib

/-!
Verification development for the click-async-plugins repository.

The development shallowly embeds the two cores of the package:

* `ITC` — the inter-task communication hub of `itc.py`: a keyed store of
  latest values (`_objects`), a per-key registry of wake events
  (`_events`), and the methods `set`, `get`, `fire`, `has_subscribers`,
  `knows_about`.  Python `asyncio.Event` objects are modelled by
  numeric identifiers carrying a boolean flag.  Keys and stored values
  are modelled by natural numbers (in the source they are opaque
  strings and arbitrary objects; only decidable equality is used).

* the `ITC.updates` async generator, embedded as a small-step machine
  (`UpdConfig`, `updStep`): states are the suspension points of the
  coroutine (the replay yield, `event.wait`, the throttling sleep, the
  loop yield, and termination), and actions are the scheduler events
  that can resume it (a publish by another task, the wakeup after
  `event.set`, expiry of `asyncio.timeout`, completion of the
  throttling sleep, the consumer pulling the next item, and the
  consumer closing the generator).  The monotonic clock is an integer
  with arbitrary origin, matching `time.monotonic` (only the ordered
  additive structure of time is used).

* the plugin lifecycle supervisor of `util.py`: `setup_plugins` /
  `run_plugins` as a trace-producing function over a list of plugin
  behaviours, `sleep_forever` and `create_plugin_task` for the no-task
  placeholder, and the `except asyncio.CancelledError` handlers of
  `task_wrapper` and `run_tasks` as outcome transformers.
-/

abbrev Key := Nat
abbrev Val := Nat

/-- Association-list lookup, modelling Python dict lookup. -/
def alook {β : Type} : List (Key × β) → Key → Option β
  | [], _ => none
  | (a, b) :: rest, k => if a = k then some b else alook rest k

/-- Association-list update, modelling Python dict item assignment:
updates in place if the key is present, appends otherwise (Python
dicts keep insertion order). -/
def aset {β : Type} : List (Key × β) → Key → β → List (Key × β)
  | [], k, v => [(k, v)]
  | (a, b) :: rest, k, v => if a = k then (k, v) :: rest else (a, b) :: aset rest k v

/-- Python `dict.get`: a read that never inserts; it returns the
looked-up entry together with the unchanged dictionary. -/
def dictGet {β : Type} (d : List (Key × β)) (k : Key) : Option β × List (Key × β) :=
  (alook d k, d)

/-- Python `defaultdict(list).__getitem__`: returns the entry and, when
the key is absent, inserts an empty list for it. -/
def ddGetItem (d : List (Key × List Nat)) (k : Key) : List Nat × List (Key × List Nat) :=
  match alook d k with
  | some l => (l, d)
  | none => ([], d ++ [(k, [])])

/-- The ITC hub state: `objects` is `self._objects` (key to latest
value), `events` is `self._events` (key to the registered event
identifiers, in registration order), `flags` gives each event its
`asyncio.Event` flag, and `nextId` supplies fresh event identifiers. -/
structure ITC where
  objects : List (Key × Val)
  events : List (Key × List Nat)
  flags : List (Nat × Bool)
  nextId : Nat
deriving Repr, DecidableEq

/-- A fresh hub, as built by `ITC.__init__`. -/
def ITC.init : ITC := ⟨[], [], [], 0⟩

/-- Flag of an event identifier (false when unknown). -/
def flagOf (itc : ITC) (id : Nat) : Bool := ((alook itc.flags id)).getD false

/-- Set the flags of the listed event identifiers, modelling
`event.set()` applied to each event in a list. -/
def setFlags (flags : List (Nat × Bool)) (ids : List Nat) : List (Nat × Bool) :=
  flags.map (fun p => if p.1 ∈ ids then (p.1, true) else p)

/-- ITC.fire: `for event in self._events.get(key) or []: event.set()`. -/
def ITC.fire (self : ITC) (key : Key) : ITC :=
  { self with flags := setFlags self.flags (((alook self.events key)).getD []) }

/-- ITC.set: `self._objects[key] = obj; self.fire(key)`. -/
def ITC.set (self : ITC) (key : Key) (obj : Val) : ITC :=
  ITC.fire { self with objects := aset self.objects key obj } key

/-- Pure value of `self._objects.get(key, default)`, with Python `None`
modelled as `Option.none` in the default and the result. -/
def getObj (itc : ITC) (key : Key) (default : Option Val) : Option Val :=
  match alook itc.objects key with
  | some v => some v
  | none => default

/-- ITC.get: `return self._objects.get(key, default)`.  The method is
state-passing so that its frame condition (it never mutates the hub)
is a statement, not a convention. -/
def ITC.get (self : ITC) (key : Key) (default : Option Val) : Option Val × ITC :=
  match dictGet self.objects key with
  | (some v, os) => (some v, { self with objects := os })
  | (none, os) => (default, { self with objects := os })

/-- ITC.has_subscribers: `return len(self._events.get(key, [])) > 0`. -/
def ITC.has_subscribers (self : ITC) (key : Key) : Bool × ITC :=
  match dictGet self.events key with
  | (some l, es) => (decide (0 < l.length), { self with events := es })
  | (none, es) => (decide (0 < ([] : List Nat).length), { self with events := es })

/-- ITC.knows_about: `return key in self._objects`. -/
def ITC.knows_about (self : ITC) (key : Key) : Bool × ITC :=
  ((alook self.objects key).isSome, self)

/-- Registration performed at the head of `ITC.updates`:
`event = asyncio.Event(); self._events[key].append(event)` (the
defaultdict inserts an empty list when the key is new).  Returns the
updated hub and the identifier of the fresh event, whose flag starts
false. -/
def registerEvent (itc : ITC) (key : Key) : ITC × Nat :=
  let id := itc.nextId
  match ddGetItem itc.events key with
  | (l, es) =>
    ({ itc with
        events := aset es key (l ++ [id]),
        flags := itc.flags ++ [(id, false)],
        nextId := id + 1 }, id)

/-- Clearing of a single event flag, modelling `event.clear()`. -/
def clearFlag (itc : ITC) (id : Nat) : ITC :=
  { itc with flags := itc.flags.map (fun p => if p.1 = id then (p.1, false) else p) }

/-- Removal performed in the `finally` of `ITC.updates`:
`self._events[key].remove(event)` (removes the first occurrence). -/
def removeEvent (itc : ITC) (key : Key) (id : Nat) : ITC :=
  { itc with events := aset itc.events key ((((alook itc.events key)).getD []).erase id) }

-- Basic lemmas on the association list operations.

theorem alook_aset_self {β : Type} (l : List (Key × β)) (k : Key) (v : β) :
    alook (aset l k v) k = some v := by
  induction l with
  | nil => simp [aset, alook]
  | cons hd tl ih =>
    by_cases h : hd.1 = k
    · simp [aset, alook, h]
    · simp [aset, alook, h, ih]

theorem alook_aset_ne {β : Type} (l : List (Key × β)) (k k2 : Key) (v : β) (h : k2 ≠ k) :
    alook (aset l k2 v) k = alook l k := by
  induction l with
  | nil => simp [aset, alook, h]
  | cons hd tl ih =>
    by_cases h2 : hd.1 = k2
    · simp [aset, alook, h2, h]
    · simp [aset, alook, h2, ih]

theorem alook_setFlags_mem (flags : List (Nat × Bool)) (ids : List Nat) (id : Nat)
    (hmem : id ∈ ids) (hsome : (alook flags id).isSome = true) :
    alook (setFlags flags ids) id = some true := by
  induction flags with
  | nil => simp [alook] at hsome
  | cons hd tl ih =>
    obtain ⟨a, b⟩ := hd
    simp only [setFlags, List.map_cons]
    simp only [setFlags] at ih
    by_cases hin : a ∈ ids
    · rw [if_pos hin]
      by_cases h : a = id
      · simp [alook, h]
      · simp only [alook, if_neg h]
        apply ih
        simpa [alook, if_neg h] using hsome
    · by_cases h : a = id
      · exact absurd hmem (h ▸ hin)
      · rw [if_neg hin]
        simp only [alook, if_neg h]
        apply ih
        simpa [alook, if_neg h] using hsome

/-- Firing a key sets the flag of every event currently registered on
that key (provided the event has a flag entry, which registration
guarantees). -/
theorem flagOf_fire (itc : ITC) (k : Key) (id : Nat)
    (hreg : id ∈ ((alook itc.events k)).getD [])
    (hsome : (alook itc.flags id).isSome = true) :
    flagOf (itc.fire k) id = true := by
  unfold ITC.fire flagOf
  simp only
  rw [alook_setFlags_mem itc.flags _ id hreg hsome]
  rfl

/-- Publishing stores the value and sets the flag of every currently
registered event of the key. -/
theorem flagOf_set (itc : ITC) (k : Key) (v : Val) (id : Nat)
    (hreg : id ∈ ((alook itc.events k)).getD [])
    (hsome : (alook itc.flags id).isSome = true) :
    flagOf (itc.set k v) id = true := by
  unfold ITC.set
  exact flagOf_fire _ k id hreg hsome

theorem getObj_set_self (itc : ITC) (k : Key) (v : Val) (d : Option Val) :
    getObj (itc.set k v) k d = some v := by
  unfold ITC.set ITC.fire getObj
  simp [alook_aset_self]

theorem getObj_set_ne (itc : ITC) (k k2 : Key) (v : Val) (d : Option Val) (h : k2 ≠ k) :
    getObj (itc.set k2 v) k d = getObj itc k d := by
  unfold ITC.set ITC.fire getObj
  simp [alook_aset_ne _ _ _ _ h]

theorem events_set (itc : ITC) (k2 : Key) (v : Val) :
    (itc.set k2 v).events = itc.events := by
  unfold ITC.set ITC.fire
  simp

/-! ## The ITC.updates async generator as a small-step machine -/

/-- Parameters of `ITC.updates`, with the defaults of the source
(`yield_immediately=True`, `timeout=None`, `at_most_every=None`,
`yield_for_no_value=None`).  Times are integers standing for the
float seconds of the source. -/
structure UpdParams where
  key : Key
  yield_immediately : Bool
  timeout : Option ℤ
  at_most_every : Option ℤ
  yield_for_no_value : Option Val
deriving Repr, DecidableEq

/-- Normalisation `at_most_every = 0 if at_most_every is None else at_most_every`. -/
def normAME (ame : Option ℤ) : ℤ := ame.getD 0

/-- Normalisation of the timeout parameter, lines 50 to 56 of itc.py: a
non-positive timeout is disabled, then a timeout below `at_most_every`
is raised to `at_most_every`. -/
def normTimeout (timeout : Option ℤ) (ame : ℤ) : Option ℤ :=
  match (match timeout with
         | some t => if t ≤ 0 then none else some t
         | none => none) with
  | some t => if t < ame then some ame else some t
  | none => none

/-- Suspension points of the generator coroutine: the replay yield of
line 62, `await event.wait()` (line 70, remembering when the wait
began for the timeout), the throttling `asyncio.sleep` of line 76
(remembering when it ends), the loop yield of line 78, and
termination. -/
inductive UPhase
  | atReplayYield
  | waiting (waitStart : ℤ)
  | sleeping (wakeAt : ℤ)
  | atLoopYield
  | done
deriving Repr, DecidableEq

/-- One produced item of the generator: at what time it was yielded,
the yielded value (`none` is the Python `None` absent marker), and
whether it came from the wait loop (line 78) rather than from the
immediate replay yield (line 62). -/
structure Emission where
  t : ℤ
  value : Option Val
  fromLoop : Bool
deriving Repr, DecidableEq

/-- Configuration of one running `updates` generator together with the
hub it is registered on, the monotonic clock `now`, and the log of
emissions so far (newest first). -/
structure UpdConfig where
  itc : ITC
  key : Key
  ame : ℤ
  timeoutN : Option ℤ
  yfnv : Option Val
  eventId : Nat
  timestamp : ℤ
  phase : UPhase
  now : ℤ
  emits : List Emission
deriving Repr, DecidableEq

/-- Yield of line 78: emit `self._objects.get(key, yield_for_no_value)`
as read at this very moment, and suspend at the loop yield. -/
def emitNow (c : UpdConfig) : UpdConfig :=
  { c with phase := .atLoopYield,
           emits := { t := c.now, value := getObj c.itc c.key c.yfnv, fromLoop := true } :: c.emits }

/-- Code run after `event.wait` returns or the timeout fires, lines 74
to 78: compute `waitremain = timestamp + at_most_every -
time.monotonic()`; sleep out the remainder when positive, otherwise
yield at once. -/
def proceed (c : UpdConfig) : UpdConfig :=
  if 0 < c.timestamp + c.ame - c.now then { c with phase := .sleeping (c.timestamp + c.ame) }
  else emitNow c

/-- Resumption after the replay yield: the body enters the `try` block
and awaits `event.wait()`; when the flag was already set by a publish
that happened while the generator was suspended at the replay yield,
the wait returns at once and the loop body continues synchronously. -/
def enterLoop (c : UpdConfig) : UpdConfig :=
  if flagOf c.itc c.eventId then proceed c else { c with phase := .waiting c.now }

/-- Generator deregistration, the `finally` of lines 82 and 83. -/
def removeAndDone (c : UpdConfig) : UpdConfig :=
  { c with itc := removeEvent c.itc c.key c.eventId, phase := .done }

/-- Scheduler actions that can affect one subscription: the clock
advancing, another task publishing to any key, the waiter resuming
after its event was set, expiry of `asyncio.timeout`, the end of the
throttling sleep, the consumer pulling the next item, and the consumer
closing the generator. -/
inductive UAct
  | advance (dt : ℤ)
  | publish (k : Key) (v : Val)
  | wake
  | timeoutFire
  | sleepFinish
  | consume
  | close
deriving Repr, DecidableEq

/-- One scheduler step.  `none` means the action is not enabled in the
given configuration. -/
def updStep (c : UpdConfig) : UAct → Option UpdConfig
  | .advance dt => if 0 ≤ dt then some { c with now := c.now + dt } else none
  | .publish k v => some { c with itc := c.itc.set k v }
  | .wake =>
    match c.phase with
    | .waiting _ => if flagOf c.itc c.eventId then some (proceed c) else none
    | _ => none
  | .timeoutFire =>
    match c.phase, c.timeoutN with
    | .waiting ws, some t => if ws + t ≤ c.now then some (proceed c) else none
    | _, _ => none
  | .sleepFinish =>
    match c.phase with
    | .sleeping w => if w ≤ c.now then some (emitNow c) else none
    | _ => none
  | .consume =>
    match c.phase with
    | .atReplayYield => some (enterLoop c)
    | .atLoopYield =>
      some { c with itc := clearFlag c.itc c.eventId, timestamp := c.now, phase := .waiting c.now }
    | _ => none
  | .close =>
    match c.phase with
    | .atReplayYield => some { c with phase := .done }
    | .waiting _ => some (removeAndDone c)
    | .sleeping _ => some (removeAndDone c)
    | .atLoopYield => some (removeAndDone c)
    | .done => none

/-- Run of a list of scheduler actions. -/
def updRun : UpdConfig → List UAct → Option UpdConfig
  | c, [] => some c
  | c, a :: acts =>
    match updStep c a with
    | some c2 => updRun c2 acts
    | none => none

/-- First execution slice of `ITC.updates` (driven by the first pull of
the consumer): normalise the parameters, create and register the
event, then either emit the replay value at once (line 62) or enter
the wait loop.  The initial `timestamp` is the literal `0.0` of line
65; `now0` is the arbitrary origin of the monotonic clock. -/
def ITC.updates_start (itc : ITC) (p : UpdParams) (now0 : ℤ) : UpdConfig :=
  match registerEvent itc p.key with
  | (itc2, id) =>
    if p.yield_immediately then
      { itc := itc2, key := p.key, ame := normAME p.at_most_every,
        timeoutN := normTimeout p.timeout (normAME p.at_most_every),
        yfnv := p.yield_for_no_value, eventId := id, timestamp := 0,
        phase := .atReplayYield, now := now0,
        emits := [{ t := now0, value := getObj itc2 p.key p.yield_for_no_value,
                    fromLoop := false }] }
    else
      { itc := itc2, key := p.key, ame := normAME p.at_most_every,
        timeoutN := normTimeout p.timeout (normAME p.at_most_every),
        yfnv := p.yield_for_no_value, eventId := id, timestamp := 0,
        phase := .waiting now0, now := now0, emits := [] }

/-! ## General lemmas about the updates machine -/

/-- Subscription-identity data that no scheduler step changes. -/
def params (c : UpdConfig) : Key × ℤ × Option ℤ × Option Val × Nat :=
  (c.key, c.ame, c.timeoutN, c.yfnv, c.eventId)

theorem params_emitNow (c : UpdConfig) : params (emitNow c) = params c := rfl

theorem params_proceed (c : UpdConfig) : params (proceed c) = params c := by
  unfold proceed
  split <;> rfl

theorem params_enterLoop (c : UpdConfig) : params (enterLoop c) = params c := by
  unfold enterLoop
  split
  · exact params_proceed c
  · rfl

theorem updStep_params (c : UpdConfig) (a : UAct) (c2 : UpdConfig)
    (h : updStep c a = some c2) : params c2 = params c := by
  cases a with
  | advance dt =>
    simp only [updStep] at h
    split at h
    · simp only [Option.some.injEq] at h
      subst h
      rfl
    · cases h
  | publish k v =>
    simp only [updStep, Option.some.injEq] at h
    subst h
    rfl
  | wake =>
    cases hp : c.phase <;> simp only [updStep, hp] at h <;> try exact Option.noConfusion h
    split at h
    · simp only [Option.some.injEq] at h
      subst h
      exact params_proceed c
    · exact Option.noConfusion h
  | timeoutFire =>
    cases hp : c.phase <;> cases ht : c.timeoutN <;> simp only [updStep, hp, ht] at h <;>
      try exact Option.noConfusion h
    split at h
    · simp only [Option.some.injEq] at h
      subst h
      exact params_proceed c
    · exact Option.noConfusion h
  | sleepFinish =>
    cases hp : c.phase <;> simp only [updStep, hp] at h <;> try exact Option.noConfusion h
    split at h
    · simp only [Option.some.injEq] at h
      subst h
      rfl
    · exact Option.noConfusion h
  | consume =>
    cases hp : c.phase <;> simp only [updStep, hp, Option.some.injEq] at h <;>
      try exact Option.noConfusion h
    · subst h
      exact params_enterLoop c
    · subst h
      rfl
  | close =>
    cases hp : c.phase <;> simp only [updStep, hp, Option.some.injEq] at h <;>
      try exact Option.noConfusion h
    all_goals subst h
    all_goals rfl

/-- Every step either leaves the emission log alone or prepends a single
loop emission whose value is the latest stored value for the key at
that very moment and whose time is the current clock. -/
theorem updStep_emits (c : UpdConfig) (a : UAct) (c2 : UpdConfig)
    (h : updStep c a = some c2) :
    c2.emits = c.emits ∨
      c2.emits = { t := c.now, value := getObj c.itc c.key c.yfnv, fromLoop := true } :: c.emits := by
  have hproceed : (proceed c).emits = c.emits ∨
      (proceed c).emits = { t := c.now, value := getObj c.itc c.key c.yfnv,
                            fromLoop := true } :: c.emits := by
    unfold proceed emitNow
    split
    · exact Or.inl rfl
    · exact Or.inr rfl
  cases a with
  | advance dt =>
    simp only [updStep] at h
    split at h
    · simp only [Option.some.injEq] at h
      subst h
      exact Or.inl rfl
    · cases h
  | publish k v =>
    simp only [updStep, Option.some.injEq] at h
    subst h
    exact Or.inl rfl
  | wake =>
    cases hp : c.phase <;> simp only [updStep, hp] at h <;> try exact Option.noConfusion h
    split at h
    · simp only [Option.some.injEq] at h
      subst h
      exact hproceed
    · exact Option.noConfusion h
  | timeoutFire =>
    cases hp : c.phase <;> cases ht : c.timeoutN <;> simp only [updStep, hp, ht] at h <;>
      try exact Option.noConfusion h
    split at h
    · simp only [Option.some.injEq] at h
      subst h
      exact hproceed
    · exact Option.noConfusion h
  | sleepFinish =>
    cases hp : c.phase <;> simp only [updStep, hp] at h <;> try exact Option.noConfusion h
    split at h
    · simp only [Option.some.injEq] at h
      subst h
      exact Or.inr rfl
    · exact Option.noConfusion h
  | consume =>
    cases hp : c.phase <;> simp only [updStep, hp, Option.some.injEq] at h <;>
      try exact Option.noConfusion h
    · subst h
      unfold enterLoop
      split
      · exact hproceed
      · exact Or.inl rfl
    · subst h
      exact Or.inl rfl
  | close =>
    cases hp : c.phase <;> simp only [updStep, hp, Option.some.injEq] at h <;>
      try exact Option.noConfusion h
    all_goals subst h
    all_goals exact Or.inl rfl

/-- Actions that do not publish to key `k`. -/
def actPubFree (k : Key) : UAct → Bool
  | .publish k2 _ => decide (k2 ≠ k)
  | _ => true

/-- Action lists that do not publish to key `k`. -/
def noPubTo (k : Key) (acts : List UAct) : Bool := acts.all (actPubFree k)

/-- Action lists with no publish at all. -/
def actNoPub : UAct → Bool
  | .publish _ _ => false
  | _ => true

/-- Predicate for an action list containing no publish action. -/
def noPub (acts : List UAct) : Bool := acts.all actNoPub

theorem getObj_clearFlag (itc : ITC) (id : Nat) (k : Key) (d : Option Val) :
    getObj (clearFlag itc id) k d = getObj itc k d := rfl

theorem getObj_removeEvent (itc : ITC) (k2 k : Key) (id : Nat) (d : Option Val) :
    getObj (removeEvent itc k2 id) k d = getObj itc k d := rfl

/-- A step whose action does not publish to the key of the subscription
leaves the latest stored value of that key unchanged. -/
theorem updStep_latest (c : UpdConfig) (a : UAct) (c2 : UpdConfig)
    (h : updStep c a = some c2) (hfree : actPubFree c.key a = true) :
    getObj c2.itc c.key c.yfnv = getObj c.itc c.key c.yfnv := by
  cases a with
  | advance dt =>
    simp only [updStep] at h
    split at h
    · simp only [Option.some.injEq] at h
      subst h
      rfl
    · exact Option.noConfusion h
  | publish k v =>
    simp only [updStep, Option.some.injEq] at h
    subst h
    simp only [actPubFree, decide_eq_true_eq] at hfree
    exact getObj_set_ne c.itc c.key k v c.yfnv hfree
  | wake =>
    cases hp : c.phase <;> simp only [updStep, hp] at h <;> try exact Option.noConfusion h
    split at h
    · simp only [Option.some.injEq] at h
      subst h
      unfold proceed emitNow
      split <;> rfl
    · exact Option.noConfusion h
  | timeoutFire =>
    cases hp : c.phase <;> cases ht : c.timeoutN <;> simp only [updStep, hp, ht] at h <;>
      try exact Option.noConfusion h
    split at h
    · simp only [Option.some.injEq] at h
      subst h
      unfold proceed emitNow
      split <;> rfl
    · exact Option.noConfusion h
  | sleepFinish =>
    cases hp : c.phase <;> simp only [updStep, hp] at h <;> try exact Option.noConfusion h
    split at h
    · simp only [Option.some.injEq] at h
      subst h
      rfl
    · exact Option.noConfusion h
  | consume =>
    cases hp : c.phase <;> simp only [updStep, hp, Option.some.injEq] at h <;>
      try exact Option.noConfusion h
    · subst h
      unfold enterLoop proceed emitNow
      split
      · split <;> rfl
      · rfl
    · subst h
      rfl
  | close =>
    cases hp : c.phase <;> simp only [updStep, hp, Option.some.injEq] at h <;>
      try exact Option.noConfusion h
    all_goals subst h
    all_goals rfl

/-- Over any publish-free continuation, every freshly produced emission
carries the latest stored value of the key as it was when the
continuation began: a burst of earlier publishes is coalesced into
emissions of the final value only. -/
theorem updRun_coalesce (acts : List UAct) : ∀ (c c2 : UpdConfig),
    updRun c acts = some c2 → noPubTo c.key acts = true →
    getObj c2.itc c.key c.yfnv = getObj c.itc c.key c.yfnv ∧
    ∃ new, c2.emits = new ++ c.emits ∧
      ∀ e ∈ new, e.value = getObj c.itc c.key c.yfnv := by
  induction acts with
  | nil =>
    intro c c2 hrun _
    simp only [updRun, Option.some.injEq] at hrun
    subst hrun
    exact ⟨rfl, [], rfl, by intro e he; cases he⟩
  | cons a rest ih =>
    intro c c2 hrun hfree
    simp only [noPubTo, List.all_cons, Bool.and_eq_true] at hfree
    simp only [updRun] at hrun
    cases hstep : updStep c a with
    | none => rw [hstep] at hrun; exact Option.noConfusion hrun
    | some c1 =>
      rw [hstep] at hrun
      have hpar := updStep_params c a c1 hstep
      have hkey : c1.key = c.key := congrArg (fun q => q.1) hpar
      have hyf : c1.yfnv = c.yfnv := congrArg (fun q => q.2.2.2.1) hpar
      have hlat := updStep_latest c a c1 hstep hfree.1
      have hrest : noPubTo c1.key rest = true := by
        rw [hkey]
        exact hfree.2
      obtain ⟨hl, new, hnew, hval⟩ := ih c1 c2 hrun hrest
      rw [hkey, hyf] at hl hval
      refine ⟨hl.trans hlat, ?_⟩
      rcases updStep_emits c a c1 hstep with he | he
      · exact ⟨new, by rw [hnew, he], fun e hmem => (hval e hmem).trans hlat⟩
      · refine ⟨new ++ [{ t := c.now, value := getObj c.itc c.key c.yfnv, fromLoop := true }],
          ?_, ?_⟩
        · rw [hnew, he, List.append_assoc]
          rfl
        · intro e hmem
          rcases List.mem_append.mp hmem with hmem2 | hmem2
          · exact (hval e hmem2).trans hlat
          · rw [List.mem_singleton.mp hmem2]

/-- A subscription that sits in `event.wait` with a cleared flag and no
timeout, or one that has terminated.  In such a state only a further
publish can ever lead to another emission. -/
def Stuck (c : UpdConfig) : Prop :=
  ((∃ ws, c.phase = UPhase.waiting ws) ∧ flagOf c.itc c.eventId = false ∧ c.timeoutN = none) ∨
    c.phase = UPhase.done

/-- From a stuck configuration, no publish-free action sequence ever
produces another emission: the subscription stays blocked past every
value published before it got stuck. -/
theorem stuck_no_emission (acts : List UAct) : ∀ (c c2 : UpdConfig),
    Stuck c → noPub acts = true → updRun c acts = some c2 →
    c2.emits = c.emits ∧ Stuck c2 := by
  induction acts with
  | nil =>
    intro c c2 hst _ hrun
    simp only [updRun, Option.some.injEq] at hrun
    subst hrun
    exact ⟨rfl, hst⟩
  | cons a rest ih =>
    intro c c2 hst hnp hrun
    simp only [noPub, List.all_cons, Bool.and_eq_true] at hnp
    simp only [updRun] at hrun
    cases hstep : updStep c a with
    | none => rw [hstep] at hrun; exact Option.noConfusion hrun
    | some c1 =>
      rw [hstep] at hrun
      have h1 : c1.emits = c.emits ∧ Stuck c1 := by
        rcases hst with ⟨⟨ws, hw⟩, hf, ht⟩ | hdone
        · cases a with
          | advance dt =>
            simp only [updStep] at hstep
            split at hstep
            · simp only [Option.some.injEq] at hstep
              subst hstep
              exact ⟨rfl, Or.inl ⟨⟨ws, hw⟩, hf, ht⟩⟩
            · exact Option.noConfusion hstep
          | publish k v => simp [actNoPub] at hnp
          | wake =>
            rw [show updStep c .wake = none by simp [updStep, hw, hf]] at hstep
            exact Option.noConfusion hstep
          | timeoutFire =>
            rw [show updStep c .timeoutFire = none by simp [updStep, hw, ht]] at hstep
            exact Option.noConfusion hstep
          | sleepFinish =>
            rw [show updStep c .sleepFinish = none by simp [updStep, hw]] at hstep
            exact Option.noConfusion hstep
          | consume =>
            rw [show updStep c .consume = none by simp [updStep, hw]] at hstep
            exact Option.noConfusion hstep
          | close =>
            rw [show updStep c .close = some (removeAndDone c) by simp [updStep, hw]] at hstep
            simp only [Option.some.injEq] at hstep
            subst hstep
            exact ⟨rfl, Or.inr rfl⟩
        · cases a with
          | advance dt =>
            simp only [updStep] at hstep
            split at hstep
            · simp only [Option.some.injEq] at hstep
              subst hstep
              exact ⟨rfl, Or.inr hdone⟩
            · exact Option.noConfusion hstep
          | publish k v => simp [actNoPub] at hnp
          | wake =>
            rw [show updStep c .wake = none by simp [updStep, hdone]] at hstep
            exact Option.noConfusion hstep
          | timeoutFire =>
            rw [show updStep c .timeoutFire = none by simp [updStep, hdone]] at hstep
            exact Option.noConfusion hstep
          | sleepFinish =>
            rw [show updStep c .sleepFinish = none by simp [updStep, hdone]] at hstep
            exact Option.noConfusion hstep
          | consume =>
            rw [show updStep c .consume = none by simp [updStep, hdone]] at hstep
            exact Option.noConfusion hstep
          | close =>
            rw [show updStep c .close = none by simp [updStep, hdone]] at hstep
            exact Option.noConfusion hstep
      obtain ⟨he1, hs1⟩ := h1
      obtain ⟨he2, hs2⟩ := ih c1 c2 hs1 hnp.2 hrun
      exact ⟨he2.trans he1, hs2⟩

/-! ## Helper lemmas about the methods and the generator start -/

theorem ITC_get_fst (itc : ITC) (k : Key) (d : Option Val) :
    (ITC.get itc k d).1 = getObj itc k d := by
  unfold ITC.get dictGet getObj
  cases alook itc.objects k <;> rfl

theorem ITC_get_snd (itc : ITC) (k : Key) (d : Option Val) :
    (ITC.get itc k d).2 = itc := by
  unfold ITC.get dictGet
  cases alook itc.objects k <;> rfl

theorem ITC_has_subscribers_snd (itc : ITC) (k : Key) :
    (ITC.has_subscribers itc k).2 = itc := by
  unfold ITC.has_subscribers dictGet
  cases alook itc.events k <;> rfl

theorem ITC_knows_about_snd (itc : ITC) (k : Key) :
    (ITC.knows_about itc k).2 = itc := rfl

theorem registerEvent_objects (itc : ITC) (k : Key) :
    (registerEvent itc k).1.objects = itc.objects := by
  unfold registerEvent ddGetItem
  cases alook itc.events k <;> rfl

/-- With `yield_immediately` set, the first slice of the generator
emits exactly one item: the latest stored value of the key (or the
absent marker), read and yielded at the very clock instant `now0` at
which the generator was started — no wait of any kind precedes it. -/
theorem updates_start_replay (itc : ITC) (p : UpdParams) (now0 : ℤ)
    (hyi : p.yield_immediately = true) :
    (ITC.updates_start itc p now0).emits =
      [{ t := now0, value := getObj itc p.key p.yield_for_no_value, fromLoop := false }] ∧
    (ITC.updates_start itc p now0).now = now0 ∧
    (ITC.updates_start itc p now0).phase = UPhase.atReplayYield := by
  unfold ITC.updates_start
  rcases hre : registerEvent itc p.key with ⟨itc2, id⟩
  have hobj : itc2.objects = itc.objects := by
    have h2 := registerEvent_objects itc p.key
    rw [hre] at h2
    exact h2
  have hget : getObj itc2 p.key p.yield_for_no_value = getObj itc p.key p.yield_for_no_value := by
    unfold getObj
    rw [hobj]
  rw [hyi]
  simp [hget]

/-- The generator machine takes the timeout actually used in the loop
from the normalisation of lines 48 to 56. -/
theorem updates_start_timeoutN (itc : ITC) (p : UpdParams) (now0 : ℤ) :
    (ITC.updates_start itc p now0).timeoutN =
      normTimeout p.timeout (normAME p.at_most_every) ∧
    (ITC.updates_start itc p now0).ame = normAME p.at_most_every := by
  unfold ITC.updates_start
  rcases registerEvent itc p.key with ⟨itc2, id⟩
  by_cases hyi : p.yield_immediately <;> simp [hyi]

/-! ## Concrete scenario used by the counterexamples -/

/-- Subscription parameters with the defaults of the source:
`yield_immediately=True`, no timeout, no throttling, `None` as the
absent marker; key 0. -/
def demoParams : UpdParams :=
  { key := 0, yield_immediately := true, timeout := none, at_most_every := none,
    yield_for_no_value := none }

/-- A consumer starting `updates` on a fresh hub at clock origin 0. -/
def demoStart : UpdConfig := ITC.updates_start ITC.init demoParams 0

/-- Scenario for the lost-wakeup window: the consumer consumes the
replay item, a publish of value 1 arrives and wakes the subscription,
which emits 1 and suspends at the loop yield; while it is suspended
there a publish of value 2 arrives; the consumer then pulls again,
which runs `event.clear()` and re-enters `event.wait`. -/
def lostWakeActs : List UAct :=
  [UAct.consume, UAct.publish 0 1, UAct.wake, UAct.publish 0 2, UAct.consume]

/-- The configuration reached by `lostWakeActs`. -/
def lostWakeEnd : UpdConfig :=
  { itc := { objects := [(0, 2)], events := [(0, [0])], flags := [(0, false)], nextId := 1 },
    key := 0, ame := 0, timeoutN := none, yfnv := none, eventId := 0,
    timestamp := 0, phase := UPhase.waiting 0, now := 0,
    emits := [{ t := 0, value := some 1, fromLoop := true },
              { t := 0, value := none, fromLoop := false }] }

/-- A subscription parked in `event.wait` (no timeout, flag unset) on a
hub with its event registered, used to instantiate the theorems. -/
def demoWaiting : UpdConfig :=
  { itc := { objects := [], events := [(0, [0])], flags := [(0, false)], nextId := 1 },
    key := 0, ame := 0, timeoutN := none, yfnv := none, eventId := 0,
    timestamp := 0, phase := UPhase.waiting 0, now := 0, emits := [] }

/-- C1 counterexample.  The claim asserts that no publish occurring
after registration can leave the subscription blocked past it.  In the
concrete schedule `lostWakeActs`, the publish of value 2 happens after
registration, while the generator is suspended at the loop yield of
line 78; the consumer then pulls, which runs `event.clear()` of line
79 and erases the wakeup, after which the generator re-enters
`event.wait`.  The final configuration has emitted only the replay
item and value 1, its flag is cleared and it has no timeout, and from
that stuck state no publish-free schedule can ever add an emission:
the subscription is blocked past the publish of value 2 and never
observes it. -/
theorem c1_counterexample :
    updRun demoStart lostWakeActs = some lostWakeEnd ∧
    lostWakeEnd.emits.map Emission.value = [some 1, none] ∧
    (some 2 ∈ lostWakeEnd.emits.map Emission.value → False) ∧
    getObj lostWakeEnd.itc 0 none = some 2 ∧
    Stuck lostWakeEnd ∧
    (∀ acts c2, noPub acts = true → updRun lostWakeEnd acts = some c2 →
      c2.emits = lostWakeEnd.emits) := by
  refine ⟨by rfl, by rfl, by decide, by rfl, Or.inl ⟨⟨0, rfl⟩, rfl, rfl⟩, ?_⟩
  intro acts c2 hnp hrun
  exact (stuck_no_emission acts lostWakeEnd c2 (Or.inl ⟨⟨0, rfl⟩, rfl, rfl⟩) hnp hrun).1

/-- C1 (amended).  A publish sets the wake event of every subscription
currently registered on the key, stores the value, and succeeds even
with zero subscribers.  A publish that arrives while the subscription
is suspended inside `event.wait` (or still at the replay yield) does
not leave it blocked: the wake (or the next pull) is enabled and runs
the loop body, which either emits at once or enters the throttling
sleep whose end emits.  Only a publish arriving between the loop yield
and the consumer-driven `event.clear()` can be erased, as the
counterexample shows. -/
theorem c1_publish_wakes (itc : ITC) (k : Key) (v : Val) (id : Nat)
    (itcZ : ITC) (vz : Val) (c cR : UpdConfig) (ws : ℤ)
    (hreg : id ∈ ((alook itc.events k)).getD [])
    (hflag : (alook itc.flags id).isSome = true)
    (_hz : (itcZ.has_subscribers k).1 = false)
    (hw : c.phase = UPhase.waiting ws)
    (hcreg : c.eventId ∈ ((alook c.itc.events c.key)).getD [])
    (hcflag : (alook c.itc.flags c.eventId).isSome = true)
    (hr : cR.phase = UPhase.atReplayYield)
    (hrreg : cR.eventId ∈ ((alook cR.itc.events cR.key)).getD [])
    (hrflag : (alook cR.itc.flags cR.eventId).isSome = true) :
    flagOf (itc.set k v) id = true ∧
    getObj (itcZ.set k vz) k none = some vz ∧
    updStep c (UAct.publish c.key v) = some { c with itc := c.itc.set c.key v } ∧
    updStep { c with itc := c.itc.set c.key v } UAct.wake =
      some (proceed { c with itc := c.itc.set c.key v }) ∧
    ((proceed { c with itc := c.itc.set c.key v }).phase =
        UPhase.sleeping (c.timestamp + c.ame) ∨
      ((proceed { c with itc := c.itc.set c.key v }).phase = UPhase.atLoopYield ∧
        (proceed { c with itc := c.itc.set c.key v }).emits =
          { t := c.now, value := getObj (c.itc.set c.key v) c.key c.yfnv,
            fromLoop := true } :: c.emits)) ∧
    updStep { cR with itc := cR.itc.set cR.key v } UAct.consume =
      some (proceed { cR with itc := cR.itc.set cR.key v }) := by
  have hcf : flagOf (c.itc.set c.key v) c.eventId = true :=
    flagOf_set c.itc c.key v c.eventId hcreg hcflag
  have hrf : flagOf (cR.itc.set cR.key v) cR.eventId = true :=
    flagOf_set cR.itc cR.key v cR.eventId hrreg hrflag
  refine ⟨flagOf_set itc k v id hreg hflag, getObj_set_self itcZ k vz none, rfl, ?_, ?_, ?_⟩
  · simp [updStep, hw, hcf]
  · unfold proceed emitNow
    split
    · exact Or.inl rfl
    · exact Or.inr ⟨rfl, rfl⟩
  · simp only [updStep, hr]
    unfold enterLoop
    simp [hrf]

/-- Closed instance of the amended C1 at a concrete hub and concrete
waiting and replay-suspended configurations. -/
theorem c1_publish_wakes_witness :
    flagOf ((⟨[], [(0, [0])], [(0, false)], 1⟩ : ITC).set 0 7) 0 = true ∧
    getObj (ITC.init.set 0 3) 0 none = some 3 ∧
    updStep demoWaiting (UAct.publish demoWaiting.key 7) =
      some { demoWaiting with itc := demoWaiting.itc.set demoWaiting.key 7 } ∧
    updStep { demoWaiting with itc := demoWaiting.itc.set demoWaiting.key 7 } UAct.wake =
      some (proceed { demoWaiting with itc := demoWaiting.itc.set demoWaiting.key 7 }) ∧
    ((proceed { demoWaiting with itc := demoWaiting.itc.set demoWaiting.key 7 }).phase =
        UPhase.sleeping (demoWaiting.timestamp + demoWaiting.ame) ∨
      ((proceed { demoWaiting with itc := demoWaiting.itc.set demoWaiting.key 7 }).phase =
          UPhase.atLoopYield ∧
        (proceed { demoWaiting with itc := demoWaiting.itc.set demoWaiting.key 7 }).emits =
          { t := demoWaiting.now,
            value := getObj (demoWaiting.itc.set demoWaiting.key 7) demoWaiting.key
              demoWaiting.yfnv,
            fromLoop := true } :: demoWaiting.emits)) ∧
    updStep { demoStart with itc := demoStart.itc.set demoStart.key 7 } UAct.consume =
      some (proceed { demoStart with itc := demoStart.itc.set demoStart.key 7 }) :=
  c1_publish_wakes ⟨[], [(0, [0])], [(0, false)], 1⟩ 0 7 0 ITC.init 3 demoWaiting demoStart 0
    (by decide) (by decide) (by decide) (by decide) (by decide) (by decide)
    (by decide) (by decide) (by decide)

/-- C2: after `publish(k, v)` and before any further publish to `k`,
the non-blocking read returns `v` (and is stable under publishes to
other keys); before any publish to `k` it returns the supplied
default.  A subscription opened with the replay option emits, as its
single first item and at the very start instant, the pre-registration
latest value, or the absent marker when none exists. -/
theorem c2_latest_and_replay (itc : ITC) (k k2 : Key) (v w : Val) (d : Option Val)
    (itcE : ITC) (p : UpdParams) (now0 : ℤ)
    (hk2 : k2 ≠ k) (hE : alook itcE.objects k = none) (hyi : p.yield_immediately = true) :
    (ITC.get (itc.set k v) k d).1 = some v ∧
    (ITC.get ((itc.set k v).set k2 w) k d).1 = some v ∧
    (ITC.get itcE k d).1 = d ∧
    (ITC.updates_start (itc.set k v) { p with key := k } now0).emits =
      [{ t := now0, value := some v, fromLoop := false }] ∧
    (ITC.updates_start itcE { p with key := k } now0).emits =
      [{ t := now0, value := p.yield_for_no_value, fromLoop := false }] ∧
    (ITC.updates_start itcE { p with key := k } now0).now = now0 ∧
    (ITC.updates_start itcE { p with key := k } now0).phase = UPhase.atReplayYield := by
  have h1 := updates_start_replay (itc.set k v) { p with key := k } now0 hyi
  have h2 := updates_start_replay itcE { p with key := k } now0 hyi
  have hgv : getObj (itc.set k v) k p.yield_for_no_value = some v := getObj_set_self itc k v _
  have hgE : getObj itcE k p.yield_for_no_value = p.yield_for_no_value := by
    unfold getObj
    rw [hE]
  refine ⟨?_, ?_, ?_, ?_, ?_, h2.2.1, h2.2.2⟩
  · rw [ITC_get_fst, getObj_set_self]
  · rw [ITC_get_fst, getObj_set_ne _ _ _ _ _ hk2, getObj_set_self]
  · rw [ITC_get_fst]
    unfold getObj
    rw [hE]
  · rw [h1.1]
    simp [hgv]
  · rw [h2.1]
    simp [hgE]

/-- Closed instance of C2 at concrete values. -/
theorem c2_latest_and_replay_witness :
    (ITC.get (ITC.init.set 0 4) 0 none).1 = some 4 ∧
    (ITC.get ((ITC.init.set 0 4).set 1 9) 0 none).1 = some 4 ∧
    (ITC.get ITC.init 0 none).1 = none ∧
    (ITC.updates_start (ITC.init.set 0 4) { demoParams with key := 0 } 5).emits =
      [{ t := 5, value := some 4, fromLoop := false }] ∧
    (ITC.updates_start ITC.init { demoParams with key := 0 } 5).emits =
      [{ t := 5, value := demoParams.yield_for_no_value, fromLoop := false }] ∧
    (ITC.updates_start ITC.init { demoParams with key := 0 } 5).now = 5 ∧
    (ITC.updates_start ITC.init { demoParams with key := 0 } 5).phase =
      UPhase.atReplayYield :=
  c2_latest_and_replay ITC.init 0 1 4 9 none ITC.init demoParams 5
    (by decide) (by decide) (by decide)

/-- C3: emissions coalesce.  Every step of the machine either yields
nothing or yields exactly the latest stored value of the key at the
moment of emission (second conjunct).  Consequently, after a burst of
two publishes `v1` then `v2` to the key of a subscription, every
emission the consumer receives before any further publish to that key
carries `v2`; the intermediate `v1` is never emitted after the burst
(first conjunct). -/
theorem c3_coalescing (c cB c2 : UpdConfig) (v1 v2 : Val) (acts : List UAct)
    (c3 : UpdConfig) (a : UAct) (c4 : UpdConfig)
    (hB : updRun c [UAct.publish c.key v1, UAct.publish c.key v2] = some cB)
    (hrun : updRun cB acts = some c2)
    (hfree : noPubTo c.key acts = true)
    (hs : updStep c3 a = some c4) :
    (∃ new, c2.emits = new ++ c.emits ∧ ∀ e ∈ new, e.value = some v2) ∧
    (c4.emits = c3.emits ∨
      c4.emits = { t := c3.now, value := getObj c3.itc c3.key c3.yfnv,
                   fromLoop := true } :: c3.emits) := by
  have hBe : cB = { c with itc := (c.itc.set c.key v1).set c.key v2 } := by
    simp only [updRun, updStep, Option.some.injEq] at hB
    exact hB.symm
  subst hBe
  obtain ⟨hlat, new, hnew, hval⟩ := updRun_coalesce acts _ c2 hrun hfree
  refine ⟨⟨new, hnew, ?_⟩, updStep_emits c3 a c4 hs⟩
  intro e he
  rw [hval e he]
  exact getObj_set_self _ _ _ _

/-- Closed instance of C3: a burst of publishes of 1 then 2 while the
subscription sits at the replay yield; the consumer pull that follows
emits 2 only. -/
theorem c3_coalescing_witness :
    (∃ new, ((updRun { demoStart with itc := (demoStart.itc.set 0 1).set 0 2 }
        [UAct.consume]).getD demoStart).emits = new ++ demoStart.emits ∧
      ∀ e ∈ new, e.value = some 2) ∧
    (((updStep demoStart UAct.consume).getD demoStart).emits = demoStart.emits ∨
      ((updStep demoStart UAct.consume).getD demoStart).emits =
        { t := demoStart.now, value := getObj demoStart.itc demoStart.key demoStart.yfnv,
          fromLoop := true } :: demoStart.emits) :=
  c3_coalescing demoStart { demoStart with itc := (demoStart.itc.set 0 1).set 0 2 }
    (updRun { demoStart with itc := (demoStart.itc.set 0 1).set 0 2 } [UAct.consume] |>.getD
      demoStart)
    1 2 [UAct.consume] demoStart UAct.consume (updStep demoStart UAct.consume |>.getD demoStart)
    (by rfl) (by rfl) (by decide) (by rfl)

/-- C5: a non-positive configured timeout is disabled; a positive
timeout below `at_most_every` is clamped up to it; a positive timeout
at least `at_most_every` is kept.  The machine uses exactly this
normalised timeout.  When the wait deadline has passed, the timeout
action is enabled, the `TimeoutError` is absorbed (the phase machine
continues, never reaching termination), and the loop body re-emits the
current latest value as a keep-alive tick, after the throttling sleep
if one is due. -/
theorem c5_timeout_handling (t t2 t3 ame : ℤ) (itc : ITC) (p : UpdParams) (now0 : ℤ)
    (c : UpdConfig) (ws T : ℤ)
    (ht0 : t ≤ 0) (ht2 : 0 < t2) (hlt : t2 < ame) (ht3 : 0 < t3) (hge : ame ≤ t3)
    (hw : c.phase = UPhase.waiting ws) (htn : c.timeoutN = some T) (hex : ws + T ≤ c.now) :
    normTimeout (some t) ame = none ∧
    normTimeout (some t2) ame = some ame ∧
    normTimeout (some t3) ame = some t3 ∧
    (ITC.updates_start itc p now0).timeoutN =
      normTimeout p.timeout (normAME p.at_most_every) ∧
    updStep c UAct.timeoutFire = some (proceed c) ∧
    ((proceed c).phase = UPhase.sleeping (c.timestamp + c.ame) ∨
      ((proceed c).phase = UPhase.atLoopYield ∧
        (proceed c).emits = { t := c.now, value := getObj c.itc c.key c.yfnv,
                              fromLoop := true } :: c.emits)) ∧
    (proceed c).phase ≠ UPhase.done := by
  have hn1 : normTimeout (some t) ame = none := by
    simp [normTimeout, ht0]
  have hn2 : normTimeout (some t2) ame = some ame := by
    simp [normTimeout, not_le.mpr ht2, hlt]
  have hn3 : normTimeout (some t3) ame = some t3 := by
    simp [normTimeout, not_le.mpr ht3, not_lt.mpr hge]
  have hdisj : (proceed c).phase = UPhase.sleeping (c.timestamp + c.ame) ∨
      ((proceed c).phase = UPhase.atLoopYield ∧
        (proceed c).emits = { t := c.now, value := getObj c.itc c.key c.yfnv,
                              fromLoop := true } :: c.emits) := by
    unfold proceed emitNow
    split
    · exact Or.inl rfl
    · exact Or.inr ⟨rfl, rfl⟩
  refine ⟨hn1, hn2, hn3, (updates_start_timeoutN itc p now0).1, ?_, hdisj, ?_⟩
  · simp [updStep, hw, htn, hex]
  · rcases hdisj with h | h
    · rw [h]
      intro hcon
      exact UPhase.noConfusion hcon
    · rw [h.1]
      intro hcon
      exact UPhase.noConfusion hcon

/-- A subscription parked in `event.wait` with a configured timeout of
1 whose deadline has passed (the wait began at 0, the clock reads 3). -/
def demoWaitingT : UpdConfig :=
  { demoWaiting with timeoutN := some 1, now := 3 }

/-- Closed instance of C5 at concrete values. -/
theorem c5_timeout_handling_witness :
    normTimeout (some (-1)) 2 = none ∧
    normTimeout (some 1) 2 = some 2 ∧
    normTimeout (some 5) 2 = some 5 ∧
    (ITC.updates_start ITC.init demoParams 0).timeoutN =
      normTimeout demoParams.timeout (normAME demoParams.at_most_every) ∧
    updStep demoWaitingT UAct.timeoutFire = some (proceed demoWaitingT) ∧
    ((proceed demoWaitingT).phase = UPhase.sleeping (demoWaitingT.timestamp + demoWaitingT.ame) ∨
      ((proceed demoWaitingT).phase = UPhase.atLoopYield ∧
        (proceed demoWaitingT).emits =
          { t := demoWaitingT.now,
            value := getObj demoWaitingT.itc demoWaitingT.key demoWaitingT.yfnv,
            fromLoop := true } :: demoWaitingT.emits)) ∧
    (proceed demoWaitingT).phase ≠ UPhase.done :=
  c5_timeout_handling (-1) 1 5 2 ITC.init demoParams 0 demoWaitingT 0 1
    (by decide) (by decide) (by decide) (by decide) (by decide)
    (by decide) (by decide) (by decide)

/-- C7 (code evaluated at the failing input): a consumer that starts
the subscription, consumes only the replayed first value and then
closes the generator leaves the generator terminated but its wake
event still registered on the hub — the registration of line 59 and
the replay yield of line 62 sit outside the `try`/`finally` of lines
64 to 83, so closing at the replay yield never runs the `finally`.  By
contrast, a consumer that has entered the wait loop and then closes is
deregistered as the claim demands. -/
theorem c7_close_at_replay_leaks :
    (updRun demoStart [UAct.close]).map
        (fun c => (c.phase, (c.itc.has_subscribers 0).1, ((alook c.itc.events 0)).getD [])) =
      some (UPhase.done, true, [0]) ∧
    (updRun demoStart [UAct.consume, UAct.close]).map
        (fun c => (c.phase, (c.itc.has_subscribers 0).1, ((alook c.itc.events 0)).getD [])) =
      some (UPhase.done, false, []) := by
  exact ⟨by rfl, by rfl⟩

/-- A history of publishes applied to a hub in order. -/
def applySets (itc : ITC) (ops : List (Key × Val)) : ITC :=
  ops.foldl (fun i pr => i.set pr.1 pr.2) itc

theorem alook_applySets (ops : List (Key × Val)) : ∀ (itc : ITC) (k : Key),
    (∀ pr ∈ ops, pr.1 ≠ k) →
    alook (applySets itc ops).objects k = alook itc.objects k := by
  induction ops with
  | nil =>
    intro itc k _
    rfl
  | cons pr rest ih =>
    intro itc k hk
    have hstep : applySets itc (pr :: rest) = applySets (itc.set pr.1 pr.2) rest := rfl
    rw [hstep, ih _ k (fun q hq => hk q (List.mem_cons_of_mem _ hq))]
    have hobj : (itc.set pr.1 pr.2).objects = aset itc.objects pr.1 pr.2 := rfl
    rw [hobj]
    exact alook_aset_ne _ _ _ _ (hk pr (List.mem_cons_self _ _))

/-- C10: read-only hub operations never create state.  For a key never
published in the whole history of the hub, `get` returns the supplied
default and `knows_about` is false; and `get`, `has_subscribers` and
`knows_about` return the hub completely unchanged on every input (the
source reads `_objects`/`_events` only through non-inserting `dict.get`
and membership, never through the inserting defaultdict access). -/
theorem c10_reads_no_state (ops : List (Key × Val)) (k : Key) (d : Option Val) (itc : ITC)
    (hk : ∀ pr ∈ ops, pr.1 ≠ k) :
    (ITC.get (applySets ITC.init ops) k d).1 = d ∧
    ((applySets ITC.init ops).knows_about k).1 = false ∧
    ((ITC.get (applySets ITC.init ops) k d).2.knows_about k).1 = false ∧
    (ITC.get itc k d).2 = itc ∧
    (itc.has_subscribers k).2 = itc ∧
    (itc.knows_about k).2 = itc := by
  have hnone : alook (applySets ITC.init ops).objects k = none := by
    rw [alook_applySets ops ITC.init k hk]
    rfl
  refine ⟨?_, ?_, ?_, ITC_get_snd itc k d, ITC_has_subscribers_snd itc k,
    ITC_knows_about_snd itc k⟩
  · rw [ITC_get_fst]
    unfold getObj
    rw [hnone]
  · unfold ITC.knows_about
    rw [hnone]
    rfl
  · rw [ITC_get_snd]
    unfold ITC.knows_about
    rw [hnone]
    rfl

/-- Closed instance of C10: a hub that has seen one publish to key 1,
read at the unpublished key 0. -/
theorem c10_reads_no_state_witness :
    (ITC.get (applySets ITC.init [(1, 5)]) 0 (some 9)).1 = some 9 ∧
    ((applySets ITC.init [(1, 5)]).knows_about 0).1 = false ∧
    ((ITC.get (applySets ITC.init [(1, 5)]) 0 (some 9)).2.knows_about 0).1 = false ∧
    (ITC.get demoWaiting.itc 0 (some 9)).2 = demoWaiting.itc ∧
    (demoWaiting.itc.has_subscribers 0).2 = demoWaiting.itc ∧
    (demoWaiting.itc.knows_about 0).2 = demoWaiting.itc :=
  c10_reads_no_state [(1, 5)] 0 (some 9) demoWaiting.itc (by decide)

/-! ## The plugin lifecycle supervisor of util.py -/

/-- Observable lifecycle events of one run: factory invocation, scope
entry (the awaited `stack.enter_async_context`), and scope release
during the unwind of the `AsyncExitStack`. -/
inductive PEvent
  | invoke (i : Nat)
  | enter (i : Nat)
  | release (i : Nat)
deriving Repr, DecidableEq

/-- Behaviour of one plugin factory for the purposes of the setup and
teardown protocol: whether entering its scope succeeds, and the task
(if any) the scope yields.  Tasks are modelled by the number of
scheduler steps they take to complete. -/
structure PluginBeh where
  enterOk : Bool
  task : Option Nat
deriving Repr, DecidableEq

/-- Result of the setup phase: the event trace, the exit stack of
entered scope indices (newest first), the collected tasks, and whether
setup completed without a fault. -/
structure SetupRes where
  trace : List PEvent
  stack : List Nat
  tasks : List (Option Nat)
  ok : Bool
deriving Repr, DecidableEq

/-- setup_plugins, lines 70 to 86 of util.py: for each factory in list
order, invoke it, then await entry of its scope on the shared
`AsyncExitStack`; a raising entry propagates immediately, leaving the
already-entered scopes on the stack.  `i` is the index of the first
plugin of the remaining list. -/
def setup_plugins : List PluginBeh → Nat → SetupRes
  | [], _ => { trace := [], stack := [], tasks := [], ok := true }
  | p :: ps, i =>
    if p.enterOk then
      match setup_plugins ps (i + 1) with
      | r => { trace := PEvent.invoke i :: PEvent.enter i :: r.trace,
               stack := r.stack ++ [i], tasks := p.task :: r.tasks, ok := r.ok }
    else
      { trace := [PEvent.invoke i], stack := [], tasks := [], ok := false }

/-- run_plugins, lines 103 to 110 of util.py: run the setup phase
inside an `AsyncExitStack` scope; whether setup raised or the run
phase finished, the stack releases every entered scope in reverse
entry order (LIFO) before the fault, if any, re-raises.  The returned
boolean is true when no setup fault occurred. -/
def run_plugins (ps : List PluginBeh) : List PEvent × Bool :=
  match setup_plugins ps 0 with
  | r => (r.trace ++ r.stack.map PEvent.release, r.ok)

/-- Expected interleaved setup trace for plugins `i, i+1, ...`:
invoke a factory, fully enter its scope, only then invoke the next. -/
def setupEvents : Nat → Nat → List PEvent
  | _, 0 => []
  | i, n + 1 => PEvent.invoke i :: PEvent.enter i :: setupEvents (i + 1) n

/-- Exit stack left by entering scopes `i, ..., i+n-1` in order:
newest first. -/
def stackOf : Nat → Nat → List Nat
  | _, 0 => []
  | i, n + 1 => stackOf (i + 1) n ++ [i]

theorem stackOf_eq_reverse_range' (n : Nat) : ∀ i : Nat,
    stackOf i n = (List.range' i n).reverse := by
  induction n with
  | zero =>
    intro i
    rfl
  | succ m ih =>
    intro i
    rw [stackOf, ih (i + 1),
      show List.range' i (m + 1) = i :: List.range' (i + 1) m from rfl,
      List.reverse_cons]

theorem stackOf_zero_eq (n : Nat) : stackOf 0 n = (List.range n).reverse := by
  rw [stackOf_eq_reverse_range' n 0, List.range_eq_range']

/-- Setup over an all-good list: the trace strictly interleaves
invocation and entry in list order, the stack records entries newest
first, and the tasks come out in list order. -/
theorem setup_plugins_all_ok (ps : List PluginBeh) : ∀ i : Nat,
    (∀ p ∈ ps, p.enterOk = true) →
    setup_plugins ps i =
      { trace := setupEvents i ps.length, stack := stackOf i ps.length,
        tasks := ps.map PluginBeh.task, ok := true } := by
  induction ps with
  | nil =>
    intro i _
    rfl
  | cons p rest ih =>
    intro i hok
    have hp : p.enterOk = true := hok p (List.mem_cons_self _ _)
    rw [show setup_plugins (p :: rest) i =
        (if p.enterOk then
          match setup_plugins rest (i + 1) with
          | r => { trace := PEvent.invoke i :: PEvent.enter i :: r.trace,
                   stack := r.stack ++ [i], tasks := p.task :: r.tasks, ok := r.ok }
        else { trace := [PEvent.invoke i], stack := [], tasks := [], ok := false }) from rfl]
    rw [if_pos hp, ih (i + 1) (fun q hq => hok q (List.mem_cons_of_mem _ hq))]
    rfl

/-- Setup stopping at the first bad plugin: every factory up to and
including the bad one is invoked exactly once, in order, each scope
fully entered before the next invocation; no factory after the bad
one is ever invoked; only the scopes preceding the bad one remain on
the stack, and setup reports the fault. -/
theorem setup_plugins_first_bad (good : List PluginBeh) : ∀ (i : Nat) (bad : PluginBeh)
    (rest : List PluginBeh), (∀ p ∈ good, p.enterOk = true) → bad.enterOk = false →
    (setup_plugins (good ++ bad :: rest) i).trace =
        setupEvents i good.length ++ [PEvent.invoke (i + good.length)] ∧
    (setup_plugins (good ++ bad :: rest) i).stack = stackOf i good.length ∧
    (setup_plugins (good ++ bad :: rest) i).ok = false := by
  induction good with
  | nil =>
    intro i bad rest _ hbad
    simp only [List.nil_append]
    rw [show setup_plugins (bad :: rest) i =
        (if bad.enterOk then
          match setup_plugins rest (i + 1) with
          | r => { trace := PEvent.invoke i :: PEvent.enter i :: r.trace,
                   stack := r.stack ++ [i], tasks := bad.task :: r.tasks, ok := r.ok }
        else { trace := [PEvent.invoke i], stack := [], tasks := [], ok := false }) from rfl]
    rw [hbad]
    simp [setupEvents, stackOf]
  | cons p grest ih =>
    intro i bad rest hok hbad
    have hp : p.enterOk = true := hok p (List.mem_cons_self _ _)
    rw [show (p :: grest) ++ bad :: rest = p :: (grest ++ bad :: rest) from rfl]
    rw [show setup_plugins (p :: (grest ++ bad :: rest)) i =
        (if p.enterOk then
          match setup_plugins (grest ++ bad :: rest) (i + 1) with
          | r => { trace := PEvent.invoke i :: PEvent.enter i :: r.trace,
                   stack := r.stack ++ [i], tasks := p.task :: r.tasks, ok := r.ok }
        else { trace := [PEvent.invoke i], stack := [], tasks := [], ok := false }) from rfl]
    rw [if_pos hp]
    obtain ⟨h1, h2, h3⟩ := ih (i + 1) bad rest (fun q hq => hok q (List.mem_cons_of_mem _ hq)) hbad
    have harith : i + 1 + grest.length = i + (grest.length + 1) := by omega
    refine ⟨?_, ?_, ?_⟩
    · simp only [h1, setupEvents, List.length_cons, harith]
      rfl
    · simp only [h2, stackOf, List.length_cons]
    · simpa using h3

/-- C4: plugin setup runs sequentially in exactly the input list
order, each factory invoked exactly once and its scope fully entered
before the next factory is invoked; teardown releases every entered
scope in exactly reverse entry order; and when entering some scope
raises, the remaining factories are never invoked and only the
already-entered scopes are released, in reverse order, before the
fault re-raises (second conjunct: the trace ends after the failing
invocation with the releases of the scopes entered before it, and the
run reports the fault). -/
theorem c4_setup_run_teardown (ps good rest : List PluginBeh) (bad : PluginBeh)
    (hok : ∀ p ∈ ps, p.enterOk = true)
    (hgood : ∀ p ∈ good, p.enterOk = true) (hbad : bad.enterOk = false) :
    run_plugins ps =
      (setupEvents 0 ps.length ++ (List.range ps.length).reverse.map PEvent.release, true) ∧
    run_plugins (good ++ bad :: rest) =
      (setupEvents 0 good.length ++ [PEvent.invoke good.length] ++
        (List.range good.length).reverse.map PEvent.release, false) := by
  constructor
  · show ((setup_plugins ps 0).trace ++ (setup_plugins ps 0).stack.map PEvent.release,
      (setup_plugins ps 0).ok) = _
    rw [setup_plugins_all_ok ps 0 hok]
    simp [stackOf_zero_eq]
  · obtain ⟨t2, s2, o2⟩ := setup_plugins_first_bad good 0 bad rest hgood hbad
    show ((setup_plugins (good ++ bad :: rest) 0).trace ++
        (setup_plugins (good ++ bad :: rest) 0).stack.map PEvent.release,
      (setup_plugins (good ++ bad :: rest) 0).ok) = _
    rw [t2, s2, o2, stackOf_zero_eq]
    simp

/-- Closed instance of C4: two healthy plugins, and a run whose second
plugin raises on scope entry. -/
theorem c4_setup_run_teardown_witness :
    run_plugins [⟨true, some 2⟩, ⟨true, none⟩] =
      ([PEvent.invoke 0, PEvent.enter 0, PEvent.invoke 1, PEvent.enter 1,
        PEvent.release 1, PEvent.release 0], true) ∧
    run_plugins [⟨true, some 2⟩, ⟨false, none⟩, ⟨true, some 5⟩] =
      ([PEvent.invoke 0, PEvent.enter 0, PEvent.invoke 1, PEvent.release 0], false) :=
  c4_setup_run_teardown [⟨true, some 2⟩, ⟨true, none⟩] [⟨true, some 2⟩]
    [⟨true, some 5⟩] ⟨false, none⟩ (by decide) (by decide) (by decide)

/-! ## Cancellation handling and the no-task placeholder -/

/-- Outcome of awaiting one asynchronous unit of work. -/
inductive Outcome
  | normal
  | cancelled
  | fault
deriving Repr, DecidableEq

/-- The `except asyncio.CancelledError` handler of task_wrapper, lines
37 to 48 of util.py: a cancellation of the wrapped await is caught,
logged, and the wrapper returns normally; any other outcome passes
through. -/
def task_wrapper (o : Outcome) : Outcome :=
  match o with
  | .cancelled => .normal
  | o2 => o2

/-- The `except* asyncio.CancelledError: pass` of run_tasks, lines 89
to 101 of util.py, applied to the outcome of the TaskGroup scope. -/
def run_tasks (group : Outcome) : Outcome :=
  match group with
  | .cancelled => .normal
  | o2 => o2

/-- The `except asyncio.CancelledError: pass` of react_to_data_update,
lines 113 to 124 of util.py. -/
def react_to_data_update (o : Outcome) : Outcome :=
  match o with
  | .cancelled => .normal
  | o2 => o2

/-- C8 counterexample: the claim says every scheduled plugin unit
re-propagates a cancellation upward after local handling.  The
task_wrapper of create_plugin_task catches `asyncio.CancelledError`,
logs, and returns normally — the cancellation is swallowed, not
re-raised; run_tasks likewise converts a cancelled task group into a
normal return, so the cancellation does not propagate out of the
run-phase scope. -/
theorem c8_counterexample :
    task_wrapper Outcome.cancelled = Outcome.normal ∧
    task_wrapper Outcome.cancelled ≠ Outcome.cancelled ∧
    run_tasks Outcome.cancelled = Outcome.normal ∧
    run_tasks Outcome.cancelled ≠ Outcome.cancelled ∧
    react_to_data_update Outcome.cancelled = Outcome.normal := by
  refine ⟨rfl, ?_, rfl, ?_, rfl⟩
  · intro h
    exact Outcome.noConfusion h
  · intro h
    exact Outcome.noConfusion h

/-- C8 (amended): cancellation is treated as a normal, silent exit
path — the unit wrapper, the run-phase boundary and the observe
callback driver all catch it and complete normally, and none of them
ever converts any outcome into a run fault that was not already a
fault; but the cancellation is suppressed there rather than
re-propagated. -/
theorem c8_cancellation_silenced (o : Outcome) :
    task_wrapper Outcome.cancelled = Outcome.normal ∧
    run_tasks Outcome.cancelled = Outcome.normal ∧
    react_to_data_update Outcome.cancelled = Outcome.normal ∧
    (task_wrapper o = Outcome.fault ↔ o = Outcome.fault) ∧
    (run_tasks o = Outcome.fault ↔ o = Outcome.fault) ∧
    (react_to_data_update o = Outcome.fault ↔ o = Outcome.fault) ∧
    task_wrapper Outcome.fault = Outcome.fault ∧
    run_tasks Outcome.fault = Outcome.fault := by
  cases o <;> exact ⟨rfl, rfl, rfl, by simp [task_wrapper], by simp [run_tasks],
    by simp [react_to_data_update], rfl, rfl⟩

/-- sleep_forever, lines 25 to 28 of util.py:
`while await asyncio.sleep(sleep, forever): pass` — each sleep returns
the `forever` argument, and the loop continues while it is truthy.
`sleep_forever_runs forever n` is whether the coroutine is still
running after `n` completed sleeps. -/
def sleep_forever_runs (forever : Bool) : Nat → Bool
  | 0 => true
  | n + 1 => forever && sleep_forever_runs forever n

theorem sleep_forever_runs_true (m : Nat) : sleep_forever_runs true m = true := by
  induction m with
  | zero => rfl
  | succ k ih => simp [sleep_forever_runs, ih]

/-- Body scheduled by create_plugin_task for one plugin slot. -/
inductive WrapperBody
  | runTask (steps : Nat)
  | placeholder
deriving Repr, DecidableEq

/-- Body selection of create_plugin_task, lines 37 to 45 of util.py: a
real coroutine is awaited; a missing task selects
`await sleep_forever(3600)` (whose `forever` argument keeps its
default `True`).  Tasks are modelled by the number of scheduler steps
they take to complete. -/
def create_plugin_task : Option Nat → WrapperBody
  | some steps => .runTask steps
  | none => .placeholder

/-- Completion of one scheduled unit after `n` scheduler steps: a real
task completes once its steps have elapsed; the placeholder completes
exactly when `sleep_forever` stops running on its own, which with
`forever = True` is never. -/
def unitCompletedAt (t : Option Nat) (n : Nat) : Bool :=
  match create_plugin_task t with
  | .runTask steps => decide (steps ≤ n)
  | .placeholder => !sleep_forever_runs true n

/-- The TaskGroup scope of run_tasks completes of its own accord
exactly when every scheduled unit has completed. -/
def run_tasks_completedAt (ts : List (Option Nat)) (n : Nat) : Bool :=
  ts.all (fun t => unitCompletedAt t n)

/-- C9: a plugin whose lifespan yields no task gets the indefinite
placeholder, whose sleep loop is still running after any number of
steps; hence a run consisting solely of no-task plugins has not
completed at any finite step — it ends only through cancellation,
which the wrapper treats as a normal exit. -/
theorem c9_placeholder_never_completes (ts : List (Option Nat)) (n m : Nat)
    (hne : ts ≠ []) (hnone : ∀ t ∈ ts, t = none) :
    create_plugin_task none = WrapperBody.placeholder ∧
    sleep_forever_runs true m = true ∧
    unitCompletedAt none n = false ∧
    run_tasks_completedAt ts n = false ∧
    task_wrapper Outcome.cancelled = Outcome.normal := by
  have hu : unitCompletedAt none n = false := by
    simp [unitCompletedAt, create_plugin_task, sleep_forever_runs_true n]
  refine ⟨rfl, sleep_forever_runs_true m, hu, ?_, rfl⟩
  rcases ts with _ | ⟨t0, rest⟩
  · exact absurd rfl hne
  · have ht0 : t0 = none := hnone t0 (List.mem_cons_self _ _)
    subst ht0
    simp [run_tasks_completedAt, hu]

/-- Closed instance of C9: two no-task plugins at step 100. -/
theorem c9_placeholder_never_completes_witness :
    create_plugin_task none = WrapperBody.placeholder ∧
    sleep_forever_runs true 7 = true ∧
    unitCompletedAt none 100 = false ∧
    run_tasks_completedAt [none, none] 100 = false ∧
    task_wrapper Outcome.cancelled = Outcome.normal :=
  c9_placeholder_never_completes [none, none] 100 7 (by decide) (by decide)

/-! ## Throttling: minimum spacing of emissions -/

/-- Every adjacent pair of the emission log (newest first) is at least
`d` apart in time. -/
def allGapsOK (d : ℤ) : List Emission → Bool
  | [] => true
  | [_] => true
  | a :: b :: r => (decide (b.t + d ≤ a.t)) && allGapsOK d (b :: r)

/-- Every adjacent pair of loop emissions (newest first) is at least
`d` apart in time. -/
def loopGapsOK (d : ℤ) : List Emission → Bool
  | [] => true
  | [_] => true
  | a :: b :: r =>
    (!(a.fromLoop && b.fromLoop) || decide (b.t + d ≤ a.t)) && loopGapsOK d (b :: r)

/-- Emission times never decrease (the log is newest first). -/
def timesOK : List Emission → Bool
  | [] => true
  | [_] => true
  | a :: b :: r => (decide (b.t ≤ a.t)) && timesOK (b :: r)

/-- Time of the newest loop emission, if any. -/
def firstLoopTime : List Emission → Option ℤ
  | [] => none
  | e :: r => if e.fromLoop then some e.t else firstLoopTime r

/-- The `timestamp` of the machine is at or after the newest loop
emission. -/
def tsOK (c : UpdConfig) : Prop :=
  ∀ s, firstLoopTime c.emits = some s → s ≤ c.timestamp

/-- Phase-dependent part of the throttling invariant. -/
def phaseOK (c : UpdConfig) : Prop :=
  match c.phase with
  | .atReplayYield => firstLoopTime c.emits = none
  | .waiting _ => tsOK c
  | .sleeping w => tsOK c ∧ c.timestamp + c.ame ≤ w
  | .atLoopYield => ∃ e r, c.emits = e :: r ∧ e.fromLoop = true ∧ e.t ≤ c.now
  | .done => True

/-- Throttling invariant of a running subscription. -/
def UpdInv (c : UpdConfig) : Prop :=
  timesOK c.emits = true ∧ (∀ e ∈ c.emits, e.t ≤ c.now) ∧
    loopGapsOK c.ame c.emits = true ∧ phaseOK c

theorem timesOK_cons (a : Emission) (es : List Emission)
    (h : timesOK es = true) (hle : ∀ e ∈ es, e.t ≤ a.t) : timesOK (a :: es) = true := by
  cases es with
  | nil => rfl
  | cons b r =>
    have hb : b.t ≤ a.t := hle b (List.mem_cons_self _ _)
    simp [timesOK, hb, h]

theorem loopGapsOK_cons (d : ℤ) (a : Emission) (es : List Emission)
    (h : loopGapsOK d es = true)
    (hcond : ∀ b r, es = b :: r → a.fromLoop = true → b.fromLoop = true → b.t + d ≤ a.t) :
    loopGapsOK d (a :: es) = true := by
  cases es with
  | nil => rfl
  | cons b r =>
    have : (!(a.fromLoop && b.fromLoop) || decide (b.t + d ≤ a.t)) = true := by
      by_cases ha : a.fromLoop = true
      · by_cases hb : b.fromLoop = true
        · simp [ha, hb, hcond b r rfl ha hb]
        · simp [Bool.not_eq_true] at hb
          simp [hb]
      · simp [Bool.not_eq_true] at ha
        simp [ha]
    show ((!(a.fromLoop && b.fromLoop) || decide (b.t + d ≤ a.t)) && loopGapsOK d (b :: r)) = true
    rw [this, h]
    rfl

theorem firstLoopTime_none_head (es : List Emission) (b : Emission) (r : List Emission)
    (hes : es = b :: r) (hnone : firstLoopTime es = none) : b.fromLoop = false := by
  subst hes
  by_cases hb : b.fromLoop = true
  · simp [firstLoopTime, hb] at hnone
  · simpa [Bool.not_eq_true] using hb

/-- The invariant survives every scheduler step. -/
theorem updStep_inv (c : UpdConfig) (a : UAct) (c2 : UpdConfig)
    (h : updStep c a = some c2) (hinv : UpdInv c) : UpdInv c2 := by
  obtain ⟨hto, hle, hlg, hph⟩ := hinv
  have hemit : ∀ (hnow : c.timestamp + c.ame ≤ c.now) (hts : tsOK c), UpdInv (emitNow c) := by
    intro hnow hts
    refine ⟨?_, ?_, ?_, ?_⟩
    · exact timesOK_cons _ _ hto hle
    · intro e he
      rcases List.mem_cons.mp he with he2 | he2
      · rw [he2]
        exact le_refl c.now
      · exact hle e he2
    · refine loopGapsOK_cons _ _ _ hlg ?_
      intro b r hes _ hbl
      have hfl : firstLoopTime c.emits = some b.t := by
        rw [hes]
        simp [firstLoopTime, hbl]
      have hbts := hts b.t hfl
      show b.t + c.ame ≤ c.now
      omega
    · exact ⟨_, _, rfl, rfl, le_refl _⟩
  have hproceed : ∀ (ws : ℤ) (hw : c.phase = UPhase.waiting ws), UpdInv (proceed c) := by
    intro ws hw
    have hts : tsOK c := by
      rw [phaseOK, hw] at hph
      exact hph
    unfold proceed
    split
    · exact ⟨hto, hle, hlg, by rw [phaseOK]; exact ⟨hts, le_refl _⟩⟩
    · have hnow : c.timestamp + c.ame ≤ c.now := by omega
      exact hemit hnow hts
  have hproceedR : c.phase = UPhase.atReplayYield → UpdInv (proceed c) := by
    intro hw
    have hnone : firstLoopTime c.emits = none := by
      rw [phaseOK, hw] at hph
      exact hph
    have hts : tsOK c := by
      intro s hs
      rw [hnone] at hs
      exact Option.noConfusion hs
    unfold proceed
    split
    · exact ⟨hto, hle, hlg, by rw [phaseOK]; exact ⟨hts, le_refl _⟩⟩
    · have hnow : c.timestamp + c.ame ≤ c.now := by omega
      exact hemit hnow hts
  cases a with
  | advance dt =>
    simp only [updStep] at h
    split at h
    · simp only [Option.some.injEq] at h
      subst h
      rename_i hdt
      refine ⟨hto, ?_, hlg, ?_⟩
      · intro e he
        have hee := hle e he
        show e.t ≤ c.now + dt
        omega
      · rw [phaseOK]
        cases hp : c.phase with
        | atReplayYield => rw [phaseOK, hp] at hph; exact hph
        | waiting ws => rw [phaseOK, hp] at hph; exact hph
        | sleeping w => rw [phaseOK, hp] at hph; exact hph
        | atLoopYield =>
          rw [phaseOK, hp] at hph
          obtain ⟨e, r, h1, h2, h3⟩ := hph
          exact ⟨e, r, h1, h2, by show e.t ≤ c.now + dt; omega⟩
        | done => trivial
    · exact Option.noConfusion h
  | publish k v =>
    simp only [updStep, Option.some.injEq] at h
    subst h
    refine ⟨hto, hle, hlg, ?_⟩
    rw [phaseOK]
    cases hp : c.phase with
    | atReplayYield => rw [phaseOK, hp] at hph; exact hph
    | waiting ws => rw [phaseOK, hp] at hph; exact hph
    | sleeping w => rw [phaseOK, hp] at hph; exact hph
    | atLoopYield => rw [phaseOK, hp] at hph; exact hph
    | done => trivial
  | wake =>
    cases hp : c.phase <;> simp only [updStep, hp] at h <;> try exact Option.noConfusion h
    split at h
    · simp only [Option.some.injEq] at h
      subst h
      exact hproceed _ hp
    · exact Option.noConfusion h
  | timeoutFire =>
    cases hp : c.phase <;> cases ht : c.timeoutN <;> simp only [updStep, hp, ht] at h <;>
      try exact Option.noConfusion h
    split at h
    · simp only [Option.some.injEq] at h
      subst h
      exact hproceed _ hp
    · exact Option.noConfusion h
  | sleepFinish =>
    cases hp : c.phase <;> simp only [updStep, hp] at h <;> try exact Option.noConfusion h
    split at h
    · simp only [Option.some.injEq] at h
      subst h
      rename_i w hwle
      rw [phaseOK, hp] at hph
      have hnow : c.timestamp + c.ame ≤ c.now := le_trans hph.2 hwle
      exact hemit hnow hph.1
    · exact Option.noConfusion h
  | consume =>
    cases hp : c.phase <;> simp only [updStep, hp, Option.some.injEq] at h <;>
      try exact Option.noConfusion h
    · subst h
      unfold enterLoop
      split
      · exact hproceedR hp
      · refine ⟨hto, hle, hlg, ?_⟩
        rw [phaseOK]
        intro s hs
        rw [phaseOK, hp] at hph
        rw [hph] at hs
        exact Option.noConfusion hs
    · subst h
      rw [phaseOK, hp] at hph
      obtain ⟨e, r, h1, h2, h3⟩ := hph
      refine ⟨hto, hle, hlg, ?_⟩
      rw [phaseOK]
      intro s hs
      rw [h1] at hs
      simp [firstLoopTime, h2] at hs
      show s ≤ c.now
      omega
  | close =>
    cases hp : c.phase <;> simp only [updStep, hp, Option.some.injEq] at h <;>
      try exact Option.noConfusion h
    all_goals subst h
    all_goals exact ⟨hto, hle, hlg, by rw [phaseOK]; trivial⟩

theorem updRun_inv (acts : List UAct) : ∀ c c2 : UpdConfig,
    updRun c acts = some c2 → UpdInv c → UpdInv c2 := by
  induction acts with
  | nil =>
    intro c c2 hrun hinv
    simp only [updRun, Option.some.injEq] at hrun
    subst hrun
    exact hinv
  | cons a rest ih =>
    intro c c2 hrun hinv
    simp only [updRun] at hrun
    cases hstep : updStep c a with
    | none => rw [hstep] at hrun; exact Option.noConfusion hrun
    | some c1 =>
      rw [hstep] at hrun
      exact ih c1 c2 hrun (updStep_inv c a c1 hstep hinv)

theorem updRun_params (acts : List UAct) : ∀ c c2 : UpdConfig,
    updRun c acts = some c2 → params c2 = params c := by
  induction acts with
  | nil =>
    intro c c2 hrun
    simp only [updRun, Option.some.injEq] at hrun
    subst hrun
    rfl
  | cons a rest ih =>
    intro c c2 hrun
    simp only [updRun] at hrun
    cases hstep : updStep c a with
    | none => rw [hstep] at hrun; exact Option.noConfusion hrun
    | some c1 =>
      rw [hstep] at hrun
      exact (ih c1 c2 hrun).trans (updStep_params c a c1 hstep)

/-- The invariant holds as soon as the generator starts. -/
theorem updates_start_inv (itc : ITC) (p : UpdParams) (now0 : ℤ) :
    UpdInv (ITC.updates_start itc p now0) := by
  unfold ITC.updates_start
  rcases registerEvent itc p.key with ⟨itc2, id⟩
  by_cases hyi : p.yield_immediately <;> simp only [hyi, if_true, if_false]
  · refine ⟨rfl, ?_, rfl, ?_⟩
    · intro e he
      rcases List.mem_singleton.mp he with rfl
      exact le_refl _
    · rw [phaseOK]
      rfl
  · refine ⟨rfl, ?_, rfl, ?_⟩
    · intro e he
      cases he
    · rw [phaseOK]
      intro s hs
      exact Option.noConfusion hs

/-- C6 (amended): over every schedule of a subscription started with
`min_interval = d`, any two adjacent emissions both produced by the
wait loop are at least `d` apart in wall-clock time, and emission
times never decrease; moreover every emission produced by any step
carries the latest stored value at the moment of that emission, so
throttling never substitutes a stale value.  (The immediate replay
emission is exempt: the gap between it and the first loop emission can
be arbitrarily small, as the counterexample shows.) -/
theorem c6_min_interval_spacing (itc : ITC) (p : UpdParams) (now0 : ℤ)
    (acts : List UAct) (c2 : UpdConfig)
    (hrun : updRun (ITC.updates_start itc p now0) acts = some c2) :
    c2.ame = normAME p.at_most_every ∧
    loopGapsOK c2.ame c2.emits = true ∧
    timesOK c2.emits = true ∧
    (∀ (c3 : UpdConfig) (a : UAct) (c4 : UpdConfig), updStep c3 a = some c4 →
      c4.emits = c3.emits ∨
        c4.emits = { t := c3.now, value := getObj c3.itc c3.key c3.yfnv,
                     fromLoop := true } :: c3.emits) := by
  have hinv := updRun_inv acts _ c2 hrun (updates_start_inv itc p now0)
  have hpar := updRun_params acts _ c2 hrun
  have hame : c2.ame = normAME p.at_most_every := by
    have h1 : c2.ame = (ITC.updates_start itc p now0).ame := congrArg (fun q => q.2.1) hpar
    rw [h1, (updates_start_timeoutN itc p now0).2]
  exact ⟨hame, hinv.2.2.1, hinv.1, fun c3 a c4 hs => updStep_emits c3 a c4 hs⟩

/-- Parameters of a throttled subscription: `at_most_every = 1`. -/
def throttleParams : UpdParams := { demoParams with at_most_every := some 1 }

/-- Closed instance of the amended C6: a throttled subscription driven
through a publish and a consumer pull. -/
theorem c6_min_interval_spacing_witness :
    ((updRun (ITC.updates_start ITC.init throttleParams 5)
        [UAct.publish 0 3, UAct.consume]).getD demoStart).ame =
      normAME throttleParams.at_most_every ∧
    loopGapsOK ((updRun (ITC.updates_start ITC.init throttleParams 5)
        [UAct.publish 0 3, UAct.consume]).getD demoStart).ame
      ((updRun (ITC.updates_start ITC.init throttleParams 5)
        [UAct.publish 0 3, UAct.consume]).getD demoStart).emits = true ∧
    timesOK ((updRun (ITC.updates_start ITC.init throttleParams 5)
        [UAct.publish 0 3, UAct.consume]).getD demoStart).emits = true ∧
    (∀ (c3 : UpdConfig) (a : UAct) (c4 : UpdConfig), updStep c3 a = some c4 →
      c4.emits = c3.emits ∨
        c4.emits = { t := c3.now, value := getObj c3.itc c3.key c3.yfnv,
                     fromLoop := true } :: c3.emits) :=
  c6_min_interval_spacing ITC.init throttleParams 5 [UAct.publish 0 3, UAct.consume]
    ((updRun (ITC.updates_start ITC.init throttleParams 5)
        [UAct.publish 0 3, UAct.consume]).getD demoStart) (by rfl)

/-- C6 counterexample: the claim as stated demands a gap of at least
`min_interval` between any two consecutive emissions.  With
`min_interval = 1` and the monotonic clock starting at origin 5 (the
reference point of `time.monotonic` is arbitrary, while the initial
`timestamp` of line 65 is the literal 0.0), a publish arriving right
after the replay emission is emitted at the same instant: the
remainder computed at line 74 is `0 + 1 - 5 < 0`, so no throttling
sleep happens, and two consecutive emissions are 0 apart. -/
theorem c6_counterexample :
    (updRun (ITC.updates_start ITC.init throttleParams 5)
        [UAct.publish 0 3, UAct.consume]).map
      (fun c => (c.ame, c.emits.map (fun e => (e.t, e.value, e.fromLoop)),
        allGapsOK c.ame c.emits)) =
      some (1, [(5, some 3, true), (5, none, false)], false) := by rfl
